import Mathlib

/-!
# FilesystemModel: a lazily populated tree model over a host filesystem

Shallow embedding of `src/filesystemmodel.cpp` / `src/filesystemmodel.h`.

* A `NodeInfo` is the C++ struct of the same name: `fileInfo`, `children`
  (a by-value vector of nodes), the raw `parent` pointer and the `mapped` flag.
* A raw `NodeInfo*` is embedded as the position of the node in the tree: the
  list of rows leading from `_nodes` down to the node (`NodePtr`).  The null
  pointer is `none`.
* `Q_ASSERT` is embedded as a checked precondition: a failing assertion aborts
  the call (`none`).  Dereferencing a null or dangling pointer aborts too.
* The collaborators outside the program (directory listing, `QFile::rename`,
  `QDir::separator`, `QDir::drives`, and what a newly built `QFileInfo`
  answers) are arguments of the operations that use them; the calls made and
  the signals emitted are returned as `Effect`s.
* No string function of Qt is modelled: a `QFileInfo` is the record of the
  answers the object gives.
-/

/-! ## Qt types used by the model -/

/-- The answers a `QFileInfo` object gives to the calls the program makes on it.
Qt caches them in the object, and the program never refreshes one, so an object
answers the same way for as long as it lives.

* `filePath`: the path the object was built with;
* `absoluteFilePath`: what `absoluteFilePath()` answers;
* `absoluteDirPath`: what `absoluteDir().path()` answers;
* `isDir`, `isRoot`: what `isDir()` and `isRoot()` answer;
* `size`, `canonicalFilePath`: what `size()` and `canonicalFilePath()` answer
  (the canonical path in the spelling the host compares it in); they are read
  by `operator==` only. -/
structure QFileInfo where
  filePath : String
  absoluteFilePath : String
  absoluteDirPath : String
  isDir : Bool
  isRoot : Bool
  size : Nat
  canonicalFilePath : String
deriving DecidableEq, Repr

namespace QFileInfo

/-- The operator `QFileInfo::operator==`: two infos are equal when they were
built with the same path; failing that, when they answer the same size and the
same canonical path. -/
def sameFile (a b : QFileInfo) : Bool :=
  decide (a.filePath = b.filePath) ||
    (decide (a.size = b.size) && decide (a.canonicalFilePath = b.canonicalFilePath))

/-- The info `QFileInfo(path)` built now: it holds the path it is given, and for
the rest it answers what the host answers for that path at the time, `stat path`
(whatever sits there now, whatever the node was before). -/
def fresh (stat : String → QFileInfo) (path : String) : QFileInfo :=
  { stat path with filePath := path }

end QFileInfo

/-- A raw `NodeInfo*`: the rows from `_nodes` down to the node. -/
abbrev NodePtr := List Nat

/-- A `QModelIndex`: row, column, the internal pointer and whether it carries a model. -/
structure QModelIndex where
  row : Int
  column : Int
  internalPointer : Option NodePtr
  model : Bool
deriving DecidableEq, Repr

namespace QModelIndex

/-- The invalid index `QModelIndex()`. -/
def invalid : QModelIndex := ⟨-1, -1, none, false⟩

/-- The test `QModelIndex::isValid()`. -/
def isValid (i : QModelIndex) : Bool :=
  decide (0 ≤ i.row) && decide (0 ≤ i.column) && i.model

end QModelIndex

/-- The index `QAbstractItemModel::createIndex(row, column, ptr)` builds. -/
def createIndex (row column : Int) (ptr : NodePtr) : QModelIndex :=
  ⟨row, column, some ptr, true⟩

namespace Qt

def DisplayRole : Int := 0
def DecorationRole : Int := 1
def EditRole : Int := 2

def ItemIsSelectable : Nat := 1
def ItemIsEditable : Nat := 2
def ItemIsEnabled : Nat := 32

end Qt

/-- What an operation does to the world outside the tree: calls to the
filesystem collaborators and signals sent to the views, in program order. -/
inductive Effect where
  | entryInfoList (path : String)
  | rename (oldName newName : String)
  | beginInsertRows (parent : QModelIndex) (first last : Int)
  | endInsertRows
  | dataChanged (topLeft bottomRight : QModelIndex)
deriving DecidableEq, Repr

/-- The call `QDir(path).entryInfoList(QStringList(), AllEntries | NoDotAndDotDot, Name)`.
The host listing `listDir` answers `none` when it fails (unreadable or missing
directory); Qt then hands back an empty list. -/
def QDir.entryInfoList (listDir : String → Option (List QFileInfo)) (path : String) :
    List QFileInfo :=
  (listDir path).getD []

/-! ## The node type -/

/-- The struct `FilesystemModel::NodeInfo`. -/
inductive NodeInfo where
  | mk (fileInfo : QFileInfo) (children : List NodeInfo) (parent : Option NodePtr)
      (mapped : Bool)
deriving Repr

namespace NodeInfo

def fileInfo : NodeInfo → QFileInfo
  | mk f _ _ _ => f

def children : NodeInfo → List NodeInfo
  | mk _ c _ _ => c

def parent : NodeInfo → Option NodePtr
  | mk _ _ p _ => p

def mapped : NodeInfo → Bool
  | mk _ _ _ m => m

/-- The constructor `NodeInfo(const QFileInfo& fileInfo, NodeInfo* parent = 0)`. -/
def new (fileInfo : QFileInfo) (parent : Option NodePtr) : NodeInfo :=
  mk fileInfo [] parent false

def withFileInfo (n : NodeInfo) (f : QFileInfo) : NodeInfo :=
  mk f n.children n.parent n.mapped

def withChildren (n : NodeInfo) (c : List NodeInfo) : NodeInfo :=
  mk n.fileInfo c n.parent n.mapped

def withMapped (n : NodeInfo) (b : Bool) : NodeInfo :=
  mk n.fileInfo n.children n.parent b

mutual
/-- The operator `NodeInfo::operator==`: the answer is the comparison of the two `fileInfo`s;
when they are equal the three `Q_ASSERT`s must hold (`none` when one fails).
The third one compares the child vectors, with this same operator. -/
def opEq : NodeInfo → NodeInfo → Option Bool
  | mk fa ca pa ma, mk fb cb pb mb =>
    let r := QFileInfo.sameFile fa fb
    if !r then some r
    else if pa ≠ pb then none
    else if ma ≠ mb then none
    else if ca.length ≠ cb.length then none
    else
      match equalRange ca cb with
      | some true => some r
      | _ => none
/-- The element loop of `QVector::operator==` (`std::equal`) on two vectors of
the same size. -/
def equalRange : List NodeInfo → List NodeInfo → Option Bool
  | a :: as, b :: bs =>
    match opEq a b with
    | none => none
    | some false => some false
    | some true => equalRange as bs
  | _, _ => some true
end

end NodeInfo

/-- The call `qFind(seq, value)` as the distance from `begin()`: the row of the first
element `e` with `e == value`, `seq.length` for `end()`; `none` when an
assertion of `operator==` fails on the way. -/
def qFind : List NodeInfo → NodeInfo → Option Nat
  | [], _ => some 0
  | e :: es, v =>
    match e.opEq v with
    | none => none
    | some true => some 0
    | some false => (qFind es v).map (· + 1)

/-- Dereference of a `NodeInfo*`. -/
def nodeAt : List NodeInfo → NodePtr → Option NodeInfo
  | _, [] => none
  | ns, i :: rest =>
    match ns[i]? with
    | none => none
    | some n =>
      match rest with
      | [] => some n
      | _ :: _ => nodeAt n.children rest

/-- Assignment through a `NodeInfo*`: the node the pointer names becomes `f` of it. -/
def modifyAt (f : NodeInfo → NodeInfo) : List NodeInfo → NodePtr → List NodeInfo
  | ns, [] => ns
  | ns, i :: rest =>
    match ns[i]? with
    | none => ns
    | some n =>
      match rest with
      | [] => ns.set i (f n)
      | _ :: _ => ns.set i (n.withChildren (modifyAt f n.children rest))

/-! ## The model -/

/-- The state of a `FilesystemModel`: the root list `_nodes`. -/
structure FilesystemModel where
  _nodes : List NodeInfo

namespace FilesystemModel

def RamificationColumn : Int := 0
def NameColumn : Int := RamificationColumn
def ModificationDateColumn : Int := 1
def SizeColumn : Int := 2
def TypeColumn : Int := 3
def ColumnCount : Int := 4

/-- The method `fetchRootDirectory()`: every drive is appended as a node without parent, unmapped. -/
def fetchRootDirectory (m : FilesystemModel) (drives : List QFileInfo) : FilesystemModel :=
  ⟨m._nodes ++ drives.map (fun d => NodeInfo.new d none)⟩

/-- The constructor: an empty root list, then `fetchRootDirectory()`. -/
def construct (drives : List QFileInfo) : FilesystemModel :=
  fetchRootDirectory ⟨[]⟩ drives

/-- The method `rowCount(parent)`. -/
def rowCount (m : FilesystemModel) (parent : QModelIndex) : Option Int :=
  if !parent.isValid then some (m._nodes.length : Int)
  else
    match parent.internalPointer with
    | none => none
    | some p =>
      match nodeAt m._nodes p with
      | none => none
      | some parentInfo => some (parentInfo.children.length : Int)

/-- The method `columnCount(parent)`. -/
def columnCount (_m : FilesystemModel) (_parent : QModelIndex) : Int := ColumnCount

/-- The base-class method `QAbstractItemModel::hasIndex(row, column, parent)`. -/
def hasIndex (m : FilesystemModel) (row column : Int) (parent : QModelIndex) : Option Bool :=
  if row < 0 ∨ column < 0 then some false
  else
    match rowCount m parent with
    | none => none
    | some rc => some (decide (row < rc) && decide (column < columnCount m parent))

/-- The method `index(row, column, parent)`. -/
def index (m : FilesystemModel) (row column : Int) (parent : QModelIndex) :
    Option QModelIndex :=
  match hasIndex m row column parent with
  | none => none
  | some false => some QModelIndex.invalid
  | some true =>
    if !parent.isValid then
      if (m._nodes.length : Int) > row then some (createIndex row column [row.toNat])
      else none
    else
      match parent.internalPointer with
      | none => none
      | some pp =>
        match nodeAt m._nodes pp with
        | none => none
        | some parentInfo =>
          if !parentInfo.mapped then none
          else if (parentInfo.children.length : Int) > row then
            some (createIndex row column (pp ++ [row.toNat]))
          else none

/-- The method `findRow(nodeInfo)`. -/
def findRow (m : FilesystemModel) (nodeInfo : Option NodePtr) : Option Int :=
  match nodeInfo with
  | none => none
  | some p =>
    match nodeAt m._nodes p with
    | none => none
    | some n =>
      let owner : Option (List NodeInfo) :=
        match n.parent with
        | some pp => (nodeAt m._nodes pp).map NodeInfo.children
        | none => some m._nodes
      match owner with
      | none => none
      | some parentInfoChildren =>
        match qFind parentInfoChildren n with
        | none => none
        | some position =>
          if position = parentInfoChildren.length then none
          else some (position : Int)

/-- The method `parent(child)`. -/
def parent (m : FilesystemModel) (child : QModelIndex) : Option QModelIndex :=
  if !child.isValid then some QModelIndex.invalid
  else
    match child.internalPointer with
    | none => none
    | some cp =>
      match nodeAt m._nodes cp with
      | none => none
      | some childInfo =>
        match childInfo.parent with
        | some pp =>
          match findRow m (some pp) with
          | none => none
          | some r => some (createIndex r RamificationColumn pp)
        | none => some QModelIndex.invalid

/-- The base-class method `QAbstractItemModel::hasChildren(parent)`. -/
def baseHasChildren (m : FilesystemModel) (parent : QModelIndex) : Option Bool :=
  match rowCount m parent with
  | none => none
  | some rc => some (decide (rc > 0) && decide (columnCount m parent > 0))

/-- The method `hasChildren(parent)`. -/
def hasChildren (m : FilesystemModel) (parent : QModelIndex) : Option Bool :=
  if parent.isValid then
    match parent.internalPointer with
    | none => none
    | some p =>
      match nodeAt m._nodes p with
      | none => none
      | some parentInfo =>
        if !parentInfo.mapped then some true
        else baseHasChildren m parent
  else baseHasChildren m parent

/-- The method `canFetchMore(parent)`. -/
def canFetchMore (m : FilesystemModel) (parent : QModelIndex) : Option Bool :=
  if !parent.isValid then some false
  else
    match parent.internalPointer with
    | none => none
    | some p =>
      match nodeAt m._nodes p with
      | none => none
      | some parentInfo => some (!parentInfo.mapped)

/-- The child node `fetchMore` builds for one entry of the listing. -/
def childOf (parentInfo : NodePtr) (entry : QFileInfo) : NodeInfo :=
  (NodeInfo.new entry (some parentInfo)).withMapped (!entry.isDir)

/-- The update `fetchMore` applies to the node it expands: one child per entry
is pushed to the back of `children`, in the order of the listing, then `mapped`
is set. -/
def expand (p : NodePtr) (children : List QFileInfo) (n : NodeInfo) : NodeInfo :=
  (n.withChildren (n.children ++ children.map (childOf p))).withMapped true

/-- The update `setData` applies to the node it renames:
`nodeInfo->fileInfo = QFileInfo(fullNewName)`. -/
def renameNode (stat : String → QFileInfo) (fullNewName : String) (n : NodeInfo) : NodeInfo :=
  n.withFileInfo (QFileInfo.fresh stat fullNewName)

/-- The method `fetchMore(parent)`: the effects performed and, unless an assertion failed,
the model afterwards. -/
def fetchMore (m : FilesystemModel) (parent : QModelIndex)
    (listDir : String → Option (List QFileInfo)) : List Effect × Option FilesystemModel :=
  if !parent.isValid then ([], none)
  else
    match parent.internalPointer with
    | none => ([], none)
    | some p =>
      match nodeAt m._nodes p with
      | none => ([], none)
      | some parentInfo =>
        if parentInfo.mapped then ([], none)
        else if !parentInfo.fileInfo.isDir then ([], none)
        else
          let path := parentInfo.fileInfo.absoluteFilePath
          let children := QDir.entryInfoList listDir path
          let insrtCnt : Int := if (children.length : Int) - 1 < 0 then 0
            else (children.length : Int) - 1
          ([Effect.entryInfoList path, Effect.beginInsertRows parent 0 insrtCnt,
            Effect.endInsertRows],
           some ⟨modifyAt (expand p children) m._nodes p⟩)

/-- The call `QModelIndex::sibling(row, column)` on an index of this model. -/
def sibling (m : FilesystemModel) (idx : QModelIndex) (row column : Int) :
    Option QModelIndex :=
  if !idx.model then some QModelIndex.invalid
  else if row = idx.row ∧ column = idx.column then some idx
  else
    match parent m idx with
    | none => none
    | some p => index m row column p

/-- The method `setData(index, value, role)`: the effects performed and, unless the call
aborted, the returned flag with the model afterwards.  The host is there as
`separator` (`QDir::separator()`), `rename` (`QFile::rename`) and `stat` (what a
`QFileInfo` built during the call answers). -/
def setData (m : FilesystemModel) (index : QModelIndex) (value : String) (role : Int)
    (separator : Char) (rename : String → String → Bool) (stat : String → QFileInfo) :
    List Effect × Option (Bool × FilesystemModel) :=
  if !index.isValid then ([], some (false, m))
  else if role ≠ Qt.EditRole then ([], some (false, m))
  else if index.column ≠ NameColumn then ([], some (false, m))
  else
    let newName := value
    if '/' ∈ newName.toList ∨ separator ∈ newName.toList then ([], some (false, m))
    else
      match index.internalPointer with
      | none => ([], none)
      | some p =>
        match nodeAt m._nodes p with
        | none => ([], none)
        | some nodeInfo =>
          let fullNewName := nodeInfo.fileInfo.absoluteDirPath ++ "/" ++ newName
          let fullOldName := nodeInfo.fileInfo.absoluteFilePath
          let renamed := rename fullOldName fullNewName
          if renamed then
            let m' : FilesystemModel :=
              ⟨modifyAt (renameNode stat fullNewName) m._nodes p⟩
            match sibling m' index index.row ColumnCount with
            | none => ([Effect.rename fullOldName fullNewName], none)
            | some s =>
              ([Effect.rename fullOldName fullNewName, Effect.dataChanged index s],
               some (renamed, m'))
          else ([Effect.rename fullOldName fullNewName], some (renamed, m))

/-- The base-class method `QAbstractItemModel::flags(index)`. -/
def baseFlags (index : QModelIndex) : Nat :=
  if index.isValid then Qt.ItemIsSelectable ||| Qt.ItemIsEnabled else 0

/-- The method `flags(index)`. -/
def flags (m : FilesystemModel) (index : QModelIndex) : Option Nat :=
  let flags := baseFlags index
  if index.isValid && decide (index.column = NameColumn) then
    match index.internalPointer with
    | none => none
    | some p =>
      match nodeAt m._nodes p with
      | none => none
      | some nodeInfo =>
        if !nodeInfo.fileInfo.isRoot then some (flags ||| Qt.ItemIsEditable)
        else some flags
  else some flags

/-! ## Runs of the program -/

/-- One completed call of a mutating operation. -/
inductive Step : FilesystemModel → FilesystemModel → Prop
  | fetchMore (m : FilesystemModel) (parent : QModelIndex)
      (listDir : String → Option (List QFileInfo)) (ev : List Effect) (m' : FilesystemModel) :
      fetchMore m parent listDir = (ev, some m') → Step m m'
  | setData (m : FilesystemModel) (index : QModelIndex) (value : String) (role : Int)
      (separator : Char) (rename : String → String → Bool) (stat : String → QFileInfo)
      (ev : List Effect) (r : Bool) (m' : FilesystemModel) :
      setData m index value role separator rename stat = (ev, some (r, m')) → Step m m'

/-- Any number of completed calls, one after the other. -/
inductive Steps : FilesystemModel → FilesystemModel → Prop
  | refl (m : FilesystemModel) : Steps m m
  | tail (m m' m'' : FilesystemModel) : Steps m m' → Step m' m'' → Steps m m''

/-- The states a program can be in: built from a drive enumeration (drives are
directories), then any number of completed calls. -/
inductive Reachable : FilesystemModel → Prop
  | construct (drives : List QFileInfo) :
      (∀ d ∈ drives, d.isDir = true) → Reachable (construct drives)
  | step (m m' : FilesystemModel) : Reachable m → Step m m' → Reachable m'

end FilesystemModel

/-! ## Predicates on trees -/

/-- Two nodes that differ at most inside their child vectors. -/
def SameShell (n n' : NodeInfo) : Prop :=
  n'.fileInfo = n.fileInfo ∧ n'.parent = n.parent ∧ n'.mapped = n.mapped ∧
    n'.children.length = n.children.length

/-- The node `n'` is `n` or `n` with one node somewhere inside its child vector
replaced by `f` of it. -/
def Touched (f : NodeInfo → NodeInfo) (n n' : NodeInfo) : Prop :=
  n' = n ∨ ∃ rest, rest ≠ [] ∧ n' = n.withChildren (modifyAt f n.children rest)

/-- The pointer a node at position `a` must hold in its `parent` field. -/
def parentPtr (a : NodePtr) : Option NodePtr :=
  if a.length ≤ 1 then none else some a.dropLast

/-- What holds of every node of a reachable tree: an unmapped node has no
children, and `parent` points at the owner. -/
def NodeOK (a : NodePtr) (n : NodeInfo) : Prop :=
  (n.mapped = false → n.children = []) ∧ n.parent = parentPtr a

/-- Every node of the tree is `NodeOK`. -/
def TreeOK (m : FilesystemModel) : Prop :=
  ∀ a n, nodeAt m._nodes a = some n → NodeOK a n

/-- The vector holds no two nodes whose `fileInfo`s compare equal. -/
def DistinctPaths (l : List NodeInfo) : Prop :=
  l.Pairwise (fun a b => QFileInfo.sameFile a.fileInfo b.fileInfo = false)

/-- No vector of the tree, `_nodes` or the children of a node, holds two nodes
whose `fileInfo`s compare equal. -/
def FilesystemModel.DistinctSiblings (m : FilesystemModel) : Prop :=
  DistinctPaths m._nodes ∧ ∀ a n, nodeAt m._nodes a = some n → DistinctPaths n.children

/-- The listing holds no two infos that compare equal. -/
def DistinctInfos (L : List QFileInfo) : Prop :=
  L.Pairwise (fun a b => QFileInfo.sameFile a b = false)

/-- The states of the runs in which the drive enumeration and every listing hold
no two infos that compare equal and every completed `setData` leaves no vector
of the tree with two nodes whose `fileInfo`s compare equal. -/
inductive FilesystemModel.CleanRun : FilesystemModel → Prop
  | construct (drives : List QFileInfo) :
      (∀ d ∈ drives, d.isDir = true) → DistinctInfos drives →
      CleanRun (FilesystemModel.construct drives)
  | fetchMore (m : FilesystemModel) (parent : QModelIndex)
      (listDir : String → Option (List QFileInfo)) (ev : List Effect) (m' : FilesystemModel) :
      CleanRun m → (∀ path, DistinctInfos (QDir.entryInfoList listDir path)) →
      FilesystemModel.fetchMore m parent listDir = (ev, some m') → CleanRun m'
  | setData (m : FilesystemModel) (index : QModelIndex) (value : String) (role : Int)
      (separator : Char) (rename : String → String → Bool) (stat : String → QFileInfo)
      (ev : List Effect) (r : Bool) (m' : FilesystemModel) :
      CleanRun m →
      FilesystemModel.setData m index value role separator rename stat = (ev, some (r, m')) →
      FilesystemModel.DistinctSiblings m' → CleanRun m'

/-! ## A run of the program used in the examples below

The host has one drive `/` holding the directory `/r`, which holds the
directories `/r/d` (with the directory `C` and the regular files `a.txt`,
`b.txt`) and `/r/f` (with the regular files `C` and `b.txt`, and no `a.txt`).
Nothing but the program changes the host during the run. -/

namespace Scenario

open FilesystemModel

/-- The directory part of a clean absolute path: the path without its last
component; it is `/` for `/` and for the entries of `/`. -/
def dirOf (path : String) : String :=
  let d := ((path.toList.reverse.dropWhile (fun c => c != '/')).drop 1).reverse
  if d.isEmpty then "/" else String.mk d

/-- What the host answers for an entry with a clean absolute path that is no
symbolic link: the absolute and the canonical path are the path itself. -/
def entry (path : String) (isDir isRoot : Bool) (size : Nat) : QFileInfo :=
  ⟨path, path, dirOf path, isDir, isRoot, size, path⟩

def drive : QFileInfo := entry "/" true true 4096

def dir (path : String) : QFileInfo := entry path true false 4096

def file (path : String) : QFileInfo := entry path false false 0

/-- The directory listing of the host before any rename. -/
def listing (path : String) : Option (List QFileInfo) :=
  if path = "/" then some [dir "/r"]
  else if path = "/r" then some [dir "/r/d", dir "/r/f"]
  else if path = "/r/d" then some [dir "/r/d/C", file "/r/d/a.txt", file "/r/d/b.txt"]
  else if path = "/r/f" then some [file "/r/f/C", file "/r/f/b.txt"]
  else none

/-- What a `QFileInfo` built right after a rename of the run answers: `/r/e` and
`/r/d` are directories then, every other path renamed to is a regular file.
(`//x` is asked for only by a host that lets the drive itself be renamed; the
clean path is `/x`.) -/
def stat (path : String) : QFileInfo :=
  if path = "/r/e" ∨ path = "/r/d" then dir path
  else if path = "//x" then ⟨"//x", "/x", "/", true, false, 4096, "/x"⟩
  else file path

/-- A listing that fails for every path. -/
def failing (_path : String) : Option (List QFileInfo) := none

/-- A listing that finds every directory empty. -/
def empty (_path : String) : Option (List QFileInfo) := some []

/-- A filesystem that performs every rename it is asked for. -/
def accept (_oldName _newName : String) : Bool := true

/-- A filesystem that refuses every rename. -/
def refuse (_oldName _newName : String) : Bool := false

/-- The model a completed `fetchMore` leaves. -/
def fetched (r : List Effect × Option FilesystemModel) : FilesystemModel :=
  r.2.getD ⟨[]⟩

/-- The model a completed `setData` leaves. -/
def renamed (r : List Effect × Option (Bool × FilesystemModel)) : FilesystemModel :=
  (r.2.map Prod.snd).getD ⟨[]⟩

/-- After construction: the drive `/`, unexpanded. -/
def s0 : FilesystemModel := construct [drive]

/-- The drive `/` expanded. -/
def s1 : FilesystemModel := fetched (fetchMore s0 (createIndex 0 0 [0]) listing)

/-- The directory `/r` expanded. -/
def s2 : FilesystemModel := fetched (fetchMore s1 (createIndex 0 0 [0, 0]) listing)

/-- The directory `/r/d` expanded: children `C`, `a.txt`, `b.txt`. -/
def s3 : FilesystemModel := fetched (fetchMore s2 (createIndex 0 0 [0, 0, 0]) listing)

/-- The directory `/r/d` renamed to `e`: on the host it is now `/r/e`. -/
def s4 : FilesystemModel :=
  renamed (setData s3 (createIndex 0 0 [0, 0, 0]) "e" Qt.EditRole '/' accept stat)

/-- The directory `/r/f` renamed to `d`: on the host `/r/d` is now the former `/r/f`. -/
def s5 : FilesystemModel :=
  renamed (setData s4 (createIndex 1 0 [0, 0, 1]) "d" Qt.EditRole '/' accept stat)

/-- The third child of the first directory, whose `fileInfo` still says
`/r/d/b.txt`, renamed to `a.txt`: the host renames `/r/d/b.txt`, which exists,
to `/r/d/a.txt`, which does not. -/
def s6 : FilesystemModel :=
  renamed (setData s5 (createIndex 2 0 [0, 0, 0, 2]) "a.txt" Qt.EditRole '/' accept stat)

/-- From `s5`, the first child, an unexpanded directory whose `fileInfo` still
says `/r/d/C`, renamed to `z`: the host renames `/r/d/C`, now the regular file
`C` of the former `/r/f`, to `/r/d/z`.  The `QFileInfo` built for `/r/d/z` is
the one of a regular file. -/
def s6z : FilesystemModel :=
  renamed (setData s5 (createIndex 0 0 [0, 0, 0, 0]) "z" Qt.EditRole '/' accept stat)

/-- From `s5`, the first child renamed to `a.txt` instead: the host renames
`/r/d/C` to `/r/d/a.txt`, which does not exist.  The second child, a mapped
file, still says `/r/d/a.txt` too. -/
def s6c : FilesystemModel :=
  renamed (setData s5 (createIndex 0 0 [0, 0, 0, 0]) "a.txt" Qt.EditRole '/' accept stat)

end Scenario

/-! # Theorems -/

/-! ## Field access -/

namespace NodeInfo

@[simp]
theorem fileInfo_mk (f : QFileInfo) (c : List NodeInfo) (p : Option NodePtr) (b : Bool) :
    (mk f c p b).fileInfo = f := rfl

@[simp]
theorem children_mk (f : QFileInfo) (c : List NodeInfo) (p : Option NodePtr) (b : Bool) :
    (mk f c p b).children = c := rfl

@[simp]
theorem parent_mk (f : QFileInfo) (c : List NodeInfo) (p : Option NodePtr) (b : Bool) :
    (mk f c p b).parent = p := rfl

@[simp]
theorem mapped_mk (f : QFileInfo) (c : List NodeInfo) (p : Option NodePtr) (b : Bool) :
    (mk f c p b).mapped = b := rfl

theorem eta (n : NodeInfo) : mk n.fileInfo n.children n.parent n.mapped = n := by
  cases n; rfl

@[simp]
theorem withChildren_children (n : NodeInfo) : n.withChildren n.children = n := by
  cases n; rfl

end NodeInfo

namespace FilesystemModel

@[simp]
theorem expand_fileInfo (p : NodePtr) (L : List QFileInfo) (n : NodeInfo) :
    (expand p L n).fileInfo = n.fileInfo := rfl

@[simp]
theorem expand_children (p : NodePtr) (L : List QFileInfo) (n : NodeInfo) :
    (expand p L n).children = n.children ++ L.map (childOf p) := rfl

@[simp]
theorem expand_parent (p : NodePtr) (L : List QFileInfo) (n : NodeInfo) :
    (expand p L n).parent = n.parent := rfl

@[simp]
theorem expand_mapped (p : NodePtr) (L : List QFileInfo) (n : NodeInfo) :
    (expand p L n).mapped = true := rfl

@[simp]
theorem childOf_fileInfo (p : NodePtr) (e : QFileInfo) :
    (childOf p e).fileInfo = e := rfl

@[simp]
theorem childOf_children (p : NodePtr) (e : QFileInfo) :
    (childOf p e).children = [] := rfl

@[simp]
theorem childOf_parent (p : NodePtr) (e : QFileInfo) :
    (childOf p e).parent = some p := rfl

@[simp]
theorem childOf_mapped (p : NodePtr) (e : QFileInfo) :
    (childOf p e).mapped = !e.isDir := rfl

@[simp]
theorem renameNode_fileInfo (stat : String → QFileInfo) (s : String) (n : NodeInfo) :
    (renameNode stat s n).fileInfo = QFileInfo.fresh stat s := rfl

@[simp]
theorem renameNode_children (stat : String → QFileInfo) (s : String) (n : NodeInfo) :
    (renameNode stat s n).children = n.children := rfl

@[simp]
theorem renameNode_parent (stat : String → QFileInfo) (s : String) (n : NodeInfo) :
    (renameNode stat s n).parent = n.parent := rfl

@[simp]
theorem renameNode_mapped (stat : String → QFileInfo) (s : String) (n : NodeInfo) :
    (renameNode stat s n).mapped = n.mapped := rfl

end FilesystemModel

@[simp]
theorem QFileInfo.fresh_filePath (stat : String → QFileInfo) (s : String) :
    (QFileInfo.fresh stat s).filePath = s := rfl

@[simp]
theorem QFileInfo.fresh_isDir (stat : String → QFileInfo) (s : String) :
    (QFileInfo.fresh stat s).isDir = (stat s).isDir := rfl

/-! ## Pointers into the tree -/

theorem nodeAt_nil (ns : List NodeInfo) : nodeAt ns [] = none := by
  cases ns <;> rfl

theorem nodeAt_single (ns : List NodeInfo) (i : Nat) : nodeAt ns [i] = ns[i]? := by
  unfold nodeAt
  cases ns[i]? <;> rfl

theorem nodeAt_cons (ns : List NodeInfo) (i : Nat) (rest : NodePtr) (h : rest ≠ []) :
    nodeAt ns (i :: rest) = (ns[i]?).bind (fun n => nodeAt n.children rest) := by
  cases rest with
  | nil => exact absurd rfl h
  | cons j r =>
    rw [nodeAt]
    cases ns[i]? <;> rfl

theorem nodeAt_append (ns : List NodeInfo) (p q : NodePtr) (hp : p ≠ []) (hq : q ≠ []) :
    nodeAt ns (p ++ q) = (nodeAt ns p).bind (fun n => nodeAt n.children q) := by
  induction p generalizing ns with
  | nil => exact absurd rfl hp
  | cons i rest ih =>
    by_cases hr : rest = []
    · subst hr
      simp only [List.singleton_append]
      rw [nodeAt_cons ns i q hq, nodeAt_single]
    · have hne : rest ++ q ≠ [] := by simp [hr]
      rw [List.cons_append, nodeAt_cons ns i _ hne, nodeAt_cons ns i _ hr]
      cases h : ns[i]? with
      | none => rfl
      | some n => simpa using ih n.children hr

theorem modifyAt_length (f : NodeInfo → NodeInfo) (ns : List NodeInfo) (p : NodePtr) :
    (modifyAt f ns p).length = ns.length := by
  cases p with
  | nil => cases ns <;> rfl
  | cons i rest =>
    unfold modifyAt
    cases ns[i]? with
    | none => rfl
    | some n => cases rest <;> simp

theorem modifyAt_single (f : NodeInfo → NodeInfo) (ns : List NodeInfo) (i : Nat) :
    modifyAt f ns [i] = match ns[i]? with
      | none => ns
      | some n => ns.set i (f n) := by
  unfold modifyAt
  cases ns[i]? <;> rfl

theorem modifyAt_cons (f : NodeInfo → NodeInfo) (ns : List NodeInfo) (i : Nat) (rest : NodePtr)
    (h : rest ≠ []) :
    modifyAt f ns (i :: rest) = match ns[i]? with
      | none => ns
      | some n => ns.set i (n.withChildren (modifyAt f n.children rest)) := by
  cases rest with
  | nil => exact absurd rfl h
  | cons j r =>
    rw [modifyAt]

theorem nodeAt_modifyAt_self (f : NodeInfo → NodeInfo) (ns : List NodeInfo) (p : NodePtr) :
    nodeAt (modifyAt f ns p) p = (nodeAt ns p).map f := by
  induction p generalizing ns with
  | nil => simp [nodeAt_nil]
  | cons i rest ih =>
    by_cases hr : rest = []
    · subst hr
      rw [modifyAt_single, nodeAt_single, nodeAt_single]
      cases h : ns[i]? with
      | none => simp [h]
      | some n =>
        have hi : i < ns.length := (List.getElem?_eq_some_iff.mp h).1
        simp [hi]
    · rw [modifyAt_cons f ns i rest hr, nodeAt_cons _ i rest hr, nodeAt_cons _ i rest hr]
      cases h : ns[i]? with
      | none => simp [h]
      | some n =>
        have hi : i < ns.length := (List.getElem?_eq_some_iff.mp h).1
        simp [hi, NodeInfo.withChildren, NodeInfo.children, ih]

theorem nodeAt_modifyAt_below (f : NodeInfo → NodeInfo) (ns : List NodeInfo) (p q : NodePtr)
    (hp : p ≠ []) (hq : q ≠ []) :
    nodeAt (modifyAt f ns p) (p ++ q) =
      (nodeAt ns p).bind (fun n => nodeAt (f n).children q) := by
  rw [nodeAt_append _ p q hp hq, nodeAt_modifyAt_self]
  cases nodeAt ns p <;> rfl

theorem SameShell.same (n : NodeInfo) : SameShell n n := ⟨Eq.refl _, Eq.refl _, Eq.refl _, Eq.refl _⟩

theorem Touched.sameShell {f : NodeInfo → NodeInfo} {n n' : NodeInfo} (h : Touched f n n') :
    SameShell n n' := by
  rcases h with rfl | ⟨rest, _, rfl⟩
  · exact SameShell.same _
  · exact ⟨rfl, rfl, rfl, modifyAt_length f n.children rest⟩

theorem nodeAt_modifyAt_shape (f : NodeInfo → NodeInfo) (ns : List NodeInfo) (p a : NodePtr)
    (h : ∀ q, a ≠ p ++ q) :
    ∃ g : NodeInfo → NodeInfo, (∀ n, Touched f n (g n)) ∧
      nodeAt (modifyAt f ns p) a = (nodeAt ns a).map g := by
  induction a generalizing ns p with
  | nil => exact ⟨id, fun _ => Or.inl rfl, by simp [nodeAt_nil]⟩
  | cons i arest ih =>
    cases p with
    | nil => exact absurd rfl (h (i :: arest))
    | cons j prest =>
      by_cases hij : i = j
      · subst hij
        have hp : prest ≠ [] := by
          intro hp
          subst hp
          exact h arest rfl
        have h' : ∀ q, arest ≠ prest ++ q := by
          intro q hq
          exact h q (by rw [hq]; rfl)
        rw [modifyAt_cons f ns i prest hp]
        cases hn : ns[i]? with
        | none => exact ⟨id, fun _ => Or.inl rfl, by simp⟩
        | some n =>
          have hi : i < ns.length := (List.getElem?_eq_some_iff.mp hn).1
          by_cases ha : arest = []
          · subst ha
            refine ⟨fun n => n.withChildren (modifyAt f n.children prest), ?_, ?_⟩
            · intro n
              exact Or.inr ⟨prest, hp, rfl⟩
            · simp [nodeAt_single, hn, hi]
          · obtain ⟨g, hg, heq⟩ := ih n.children prest h'
            refine ⟨g, hg, ?_⟩
            rw [nodeAt_cons _ i arest ha, nodeAt_cons _ i arest ha]
            simp [hn, hi, NodeInfo.withChildren, NodeInfo.children]
            simpa [NodeInfo.children] using heq
      · refine ⟨id, fun _ => Or.inl rfl, ?_⟩
        have hset : ∀ x, (ns.set j x)[i]? = ns[i]? := by
          intro x
          exact List.getElem?_set_ne (fun hji => hij hji.symm)
        have hmod : (modifyAt f ns (j :: prest))[i]? = ns[i]? := by
          unfold modifyAt
          cases ns[j]? with
          | none => rfl
          | some n => cases prest <;> simp [hset]
        by_cases ha : arest = []
        · subst ha
          simp [nodeAt_single, hmod]
        · rw [nodeAt_cons _ i arest ha, nodeAt_cons _ i arest ha, hmod]
          simp

theorem nodeAt_modifyAt_other (f : NodeInfo → NodeInfo) (ns : List NodeInfo) (p a : NodePtr)
    (h : ∀ q, a ≠ p ++ q) :
    ∃ g : NodeInfo → NodeInfo, (∀ n, SameShell n (g n)) ∧
      nodeAt (modifyAt f ns p) a = (nodeAt ns a).map g := by
  obtain ⟨g, hg, heq⟩ := nodeAt_modifyAt_shape f ns p a h
  exact ⟨g, fun n => (hg n).sameShell, heq⟩

theorem modifyAt_map_fileInfo (f : NodeInfo → NodeInfo) (hf : ∀ n, (f n).fileInfo = n.fileInfo)
    (ns : List NodeInfo) (p : NodePtr) :
    (modifyAt f ns p).map NodeInfo.fileInfo = ns.map NodeInfo.fileInfo := by
  have key : ∀ (i : Nat) (n x : NodeInfo), ns[i]? = some n → x.fileInfo = n.fileInfo →
      (ns.set i x).map NodeInfo.fileInfo = ns.map NodeInfo.fileInfo := by
    intro i n x hn hx
    apply List.ext_getElem?
    intro k
    by_cases hk : i = k
    · subst hk
      obtain ⟨hi, hget⟩ := List.getElem?_eq_some_iff.mp hn
      simp [hi, hx, hget]
    · simp [List.getElem?_set_ne hk]
  cases p with
  | nil => cases ns <;> rfl
  | cons i rest =>
    unfold modifyAt
    cases hn : ns[i]? with
    | none => rfl
    | some n =>
      cases rest with
      | nil => exact key i n (f n) hn (hf n)
      | cons j r => exact key i n _ hn rfl

/-! ## The invariant of reachable states -/

theorem NodeOK.of_sameShell {a : NodePtr} {n n' : NodeInfo} (h : SameShell n n')
    (hn : NodeOK a n) : NodeOK a n' := by
  obtain ⟨_, hp, hm, hl⟩ := h
  obtain ⟨h1, h3⟩ := hn
  have hnil : n.children = [] → n'.children = [] := by
    intro hc
    rw [hc] at hl
    exact List.length_eq_zero.mp hl
  exact ⟨fun hm' => hnil (h1 (hm ▸ hm')), by rw [hp, h3]⟩

theorem nodeAt_ne_nil {ns : List NodeInfo} {p : NodePtr} {n : NodeInfo}
    (h : nodeAt ns p = some n) : p ≠ [] := by
  intro hp
  subst hp
  rw [nodeAt_nil] at h
  cases h

theorem treeOK_modifyAt (f : NodeInfo → NodeInfo) (ns : List NodeInfo) (p : NodePtr)
    (n0 : NodeInfo) (hinv : TreeOK ⟨ns⟩) (hp : nodeAt ns p = some n0)
    (hself : NodeOK p (f n0))
    (hbelow : ∀ q n', q ≠ [] → nodeAt (f n0).children q = some n' → NodeOK (p ++ q) n') :
    TreeOK ⟨modifyAt f ns p⟩ := by
  intro a n' ha
  simp only at ha
  by_cases hpa : ∃ q, a = p ++ q
  · obtain ⟨q, rfl⟩ := hpa
    by_cases hq : q = []
    · subst hq
      rw [List.append_nil] at ha ⊢
      rw [nodeAt_modifyAt_self, hp] at ha
      cases ha
      exact hself
    · rw [nodeAt_modifyAt_below f ns p q (nodeAt_ne_nil hp) hq, hp] at ha
      exact hbelow q n' hq ha
  · obtain ⟨g, hg, heq⟩ := nodeAt_modifyAt_other f ns p a (fun q hq => hpa ⟨q, hq⟩)
    rw [heq] at ha
    cases hn : nodeAt ns a with
    | none => rw [hn] at ha; cases ha
    | some n =>
      rw [hn] at ha
      cases ha
      exact NodeOK.of_sameShell (hg n) (hinv a n hn)

namespace FilesystemModel

theorem fetchMore_some {m m' : FilesystemModel} {parent : QModelIndex}
    {listDir : String → Option (List QFileInfo)} {ev : List Effect}
    (h : fetchMore m parent listDir = (ev, some m')) :
    ∃ p n0, parent.isValid = true ∧ parent.internalPointer = some p ∧
      nodeAt m._nodes p = some n0 ∧ n0.mapped = false ∧ n0.fileInfo.isDir = true ∧
      m' = ⟨modifyAt (expand p (QDir.entryInfoList listDir n0.fileInfo.absoluteFilePath))
        m._nodes p⟩ := by
  unfold fetchMore at h
  split at h
  · cases h
  · rename_i hv
    split at h
    · cases h
    · rename_i p hp
      split at h
      · cases h
      · rename_i n0 hn0
        split at h
        · cases h
        · rename_i hm
          split at h
          · cases h
          · rename_i hd
            simp only [Prod.mk.injEq, Option.some.injEq] at h
            refine ⟨p, n0, by simpa using hv, hp, hn0, by simpa using hm, by simpa using hd, ?_⟩
            rw [← h.2]

end FilesystemModel

theorem nodeAt_nil_list (a : NodePtr) : nodeAt [] a = none := by
  cases a <;> rfl

theorem parentPtr_snoc (p : NodePtr) (i : Nat) (hp : p ≠ []) :
    parentPtr (p ++ [i]) = some p := by
  have hl : 0 < p.length := List.length_pos.mpr hp
  unfold parentPtr
  rw [if_neg (by simp [hp]), List.dropLast_concat]

namespace FilesystemModel

theorem fetchMore_eq {m : FilesystemModel} {parent : QModelIndex}
    (listDir : String → Option (List QFileInfo)) {p : NodePtr} {n0 : NodeInfo}
    (hv : parent.isValid = true) (hp : parent.internalPointer = some p)
    (hn : nodeAt m._nodes p = some n0) (hm : n0.mapped = false)
    (hd : n0.fileInfo.isDir = true) :
    fetchMore m parent listDir =
      ([Effect.entryInfoList n0.fileInfo.absoluteFilePath,
        Effect.beginInsertRows parent 0
          (if ((QDir.entryInfoList listDir n0.fileInfo.absoluteFilePath).length : Int) - 1 < 0
            then 0
            else ((QDir.entryInfoList listDir n0.fileInfo.absoluteFilePath).length : Int) - 1),
        Effect.endInsertRows],
       some ⟨modifyAt (expand p (QDir.entryInfoList listDir n0.fileInfo.absoluteFilePath))
        m._nodes p⟩) := by
  unfold fetchMore
  simp only [hv, hp, hn, hm, hd]
  rfl

theorem setData_some {m m' : FilesystemModel} {index : QModelIndex} {value : String}
    {role : Int} {separator : Char} {rename : String → String → Bool}
    {stat : String → QFileInfo} {ev : List Effect}
    {r : Bool} (h : setData m index value role separator rename stat = (ev, some (r, m'))) :
    m' = m ∨ ∃ p n0, index.internalPointer = some p ∧ nodeAt m._nodes p = some n0 ∧
      m' = ⟨modifyAt (renameNode stat (n0.fileInfo.absoluteDirPath ++ "/" ++ value)) m._nodes p⟩ := by
  unfold setData at h
  split at h
  · simp only [Prod.mk.injEq, Option.some.injEq] at h; exact Or.inl h.2.2.symm
  · split at h
    · simp only [Prod.mk.injEq, Option.some.injEq] at h; exact Or.inl h.2.2.symm
    · split at h
      · simp only [Prod.mk.injEq, Option.some.injEq] at h; exact Or.inl h.2.2.symm
      · simp only at h
        split at h
        · simp only [Prod.mk.injEq, Option.some.injEq] at h; exact Or.inl h.2.2.symm
        · split at h
          · cases h
          · rename_i p hp
            split at h
            · cases h
            · rename_i n0 hn0
              split at h
              · split at h
                · cases h
                · simp only [Prod.mk.injEq, Option.some.injEq] at h
                  exact Or.inr ⟨p, n0, hp, hn0, h.2.2.symm⟩
              · simp only [Prod.mk.injEq, Option.some.injEq] at h; exact Or.inl h.2.2.symm

theorem treeOK_construct (drives : List QFileInfo) : TreeOK (construct drives) := by
  intro a n ha
  simp only [construct, fetchRootDirectory, List.nil_append] at ha
  cases a with
  | nil => rw [nodeAt_nil] at ha; cases ha
  | cons i rest =>
    by_cases hr : rest = []
    · subst hr
      rw [nodeAt_single, List.getElem?_map] at ha
      cases hd : drives[i]? with
      | none => rw [hd] at ha; cases ha
      | some d =>
        rw [hd] at ha
        simp only [Option.map_some', Option.some.injEq] at ha
        subst ha
        exact ⟨fun _ => rfl, rfl⟩
    · rw [nodeAt_cons _ i rest hr, List.getElem?_map] at ha
      cases hd : drives[i]? with
      | none => rw [hd] at ha; cases ha
      | some d =>
        rw [hd] at ha
        simp only [Option.map_some', Option.some_bind, NodeInfo.new, NodeInfo.children_mk,
          nodeAt_nil_list] at ha
        cases ha

theorem nodeAt_children_map_childOf {p : NodePtr} {L : List QFileInfo} {q : NodePtr}
    {n' : NodeInfo} (h : nodeAt (L.map (childOf p)) q = some n') :
    ∃ i e, q = [i] ∧ L[i]? = some e ∧ n' = childOf p e := by
  cases q with
  | nil => rw [nodeAt_nil] at h; cases h
  | cons i rest =>
    by_cases hr : rest = []
    · subst hr
      rw [nodeAt_single, List.getElem?_map] at h
      cases he : L[i]? with
      | none => rw [he] at h; cases h
      | some e =>
        rw [he] at h
        simp only [Option.map_some', Option.some.injEq] at h
        exact ⟨i, e, rfl, he, h.symm⟩
    · rw [nodeAt_cons _ i rest hr, List.getElem?_map] at h
      cases he : L[i]? with
      | none => rw [he] at h; cases h
      | some e =>
        rw [he] at h
        simp only [Option.map_some', Option.some_bind, childOf_children, nodeAt_nil_list] at h
        cases h

theorem treeOK_step {m m' : FilesystemModel} (hinv : TreeOK m) (hs : Step m m') :
    TreeOK m' := by
  cases hs with
  | fetchMore parent listDir ev _ h =>
    obtain ⟨p, n0, _, _, hn0, hm, _, rfl⟩ := fetchMore_some h
    have hok := hinv p n0 hn0
    have hc : n0.children = [] := hok.1 hm
    apply treeOK_modifyAt _ _ _ n0 hinv hn0
    · refine ⟨fun hm' => ?_, hok.2⟩
      simp at hm'
    · intro q n' _ hq
      simp only [expand_children, hc, List.nil_append] at hq
      obtain ⟨i, e, rfl, _, rfl⟩ := nodeAt_children_map_childOf hq
      refine ⟨fun _ => rfl, ?_⟩
      rw [parentPtr_snoc p i (nodeAt_ne_nil hn0)]
      rfl
  | setData index value role separator rename stat ev r _ h =>
    rcases setData_some h with rfl | ⟨p, n0, _, hn0, rfl⟩
    · exact hinv
    · have hok := hinv p n0 hn0
      apply treeOK_modifyAt _ _ _ n0 hinv hn0
      · exact hok
      · intro q n' hq hn'
        have : nodeAt m._nodes (p ++ q) = some n' := by
          rw [nodeAt_append _ p q (nodeAt_ne_nil hn0) hq, hn0]
          exact hn'
        exact hinv _ _ this

theorem treeOK_of_reachable {m : FilesystemModel} (h : Reachable m) : TreeOK m := by
  induction h with
  | construct drives _ => exact treeOK_construct drives
  | step m m' _ hs ih => exact treeOK_step ih hs

end FilesystemModel

namespace FilesystemModel

/-! ## Rename: rejected names -/

/-- C5: a proposed name holding `/` or the host separator is turned down before
anything else happens: `setData` answers false, performs no effect (no call of
`QFile::rename`, no signal) and the model, hence the path of every node, is as
before. -/
theorem setData_rejects_separator (m : FilesystemModel) (index : QModelIndex) (value : String)
    (role : Int) (separator : Char) (rename : String → String → Bool)
    (stat : String → QFileInfo) (h : '/' ∈ value.toList ∨ separator ∈ value.toList) :
    setData m index value role separator rename stat = ([], some (false, m)) := by
  unfold setData
  split
  · rfl
  · split
    · rfl
    · split
      · rfl
      · simp only [h, if_true]

/-! ## What a view is told about children -/

/-- The answer of `canFetchMore` for a live node is the negation of `mapped`,
whatever the node is; it is "a directory that has not been expanded" for the
nodes whose flag is in step with their kind (a file is mapped). -/
theorem canFetchMore_eq (m : FilesystemModel) (index : QModelIndex) (p : NodePtr)
    (n : NodeInfo) (hv : index.isValid = true) (hp : index.internalPointer = some p)
    (hn : nodeAt m._nodes p = some n) :
    canFetchMore m index = some (!n.mapped) ∧
      ((n.fileInfo.isDir = false → n.mapped = true) →
        canFetchMore m index = some (n.fileInfo.isDir && !n.mapped)) := by
  have hc : canFetchMore m index = some (!n.mapped) := by
    unfold canFetchMore
    simp [hv, hp, hn]
  refine ⟨hc, fun hfile => ?_⟩
  rw [hc]
  cases hd : n.fileInfo.isDir
  · simp [hfile hd]
  · simp

/-- In a reachable state an unexpanded node has `rowCount` 0 and still reports
`hasChildren`; an expanded node reports `hasChildren` exactly when its
`rowCount` is positive, so an expanded node without children reports none. -/
theorem hasChildren_policy (m : FilesystemModel) (hr : Reachable m) (index : QModelIndex)
    (p : NodePtr) (n : NodeInfo) (hv : index.isValid = true)
    (hp : index.internalPointer = some p) (hn : nodeAt m._nodes p = some n) :
    rowCount m index = some (n.children.length : Int) ∧
      (n.mapped = false → rowCount m index = some 0 ∧ hasChildren m index = some true) ∧
      (n.mapped = true → hasChildren m index = some (decide ((n.children.length : Int) > 0))) ∧
      (n.mapped = true → n.children = [] → hasChildren m index = some false) := by
  have hok := treeOK_of_reachable hr p n hn
  have hrc : rowCount m index = some (n.children.length : Int) := by
    unfold rowCount
    simp [hv, hp, hn]
  have hmapped : n.mapped = true →
      hasChildren m index = some (decide ((n.children.length : Int) > 0)) := by
    intro hm
    unfold hasChildren baseHasChildren
    simp [hv, hp, hn, hm, hrc, columnCount, ColumnCount]
  refine ⟨hrc, ?_, hmapped, ?_⟩
  · intro hm
    refine ⟨?_, ?_⟩
    · rw [hrc, hok.1 hm]
      rfl
    · unfold hasChildren
      simp [hv, hp, hn, hm]
  · intro hm hc
    rw [hmapped hm, hc]
    rfl

end FilesystemModel

theorem nodeAt_append_left {xs : List NodeInfo} (ys : List NodeInfo) {q : NodePtr}
    {n : NodeInfo} (h : nodeAt xs q = some n) : nodeAt (xs ++ ys) q = some n := by
  cases q with
  | nil => rw [nodeAt_nil] at h; cases h
  | cons i rest =>
    have hi : ∀ x, xs[i]? = some x → (xs ++ ys)[i]? = some x := by
      intro x hx
      have hlt : i < xs.length := (List.getElem?_eq_some_iff.mp hx).1
      rw [List.getElem?_append_left hlt]
      exact hx
    by_cases hr : rest = []
    · subst hr
      rw [nodeAt_single] at h ⊢
      exact hi n h
    · rw [nodeAt_cons _ i rest hr] at h ⊢
      cases hx : xs[i]? with
      | none => rw [hx] at h; cases h
      | some x =>
        rw [hx] at h
        rw [hi x hx]
        exact h

namespace FilesystemModel

/-! ## Expansion -/

/-- C3: expanding an unexpanded directory of a reachable state with the listing
`L` succeeds and leaves the node mapped, with exactly one child per entry of `L`
in the order of `L` (so whatever order the listing has, the children have it
too); every child points back at the node and is mapped exactly when its entry
is not a directory; the `i`-th child is the node behind the pointer `p ++ [i]`. -/
theorem fetchMore_postcondition (m : FilesystemModel) (hr : Reachable m) (parent : QModelIndex)
    (listDir : String → Option (List QFileInfo)) (p : NodePtr) (n0 : NodeInfo)
    (L : List QFileInfo) (hv : parent.isValid = true) (hp : parent.internalPointer = some p)
    (hn : nodeAt m._nodes p = some n0) (hm : n0.mapped = false)
    (hd : n0.fileInfo.isDir = true) (hL : listDir n0.fileInfo.absoluteFilePath = some L) :
    ∃ ev m' n', fetchMore m parent listDir = (ev, some m') ∧
      nodeAt m'._nodes p = some n' ∧ n'.mapped = true ∧
      n'.children.length = L.length ∧
      n'.children.map NodeInfo.fileInfo = L ∧
      (∀ c ∈ n'.children, c.parent = some p ∧ (c.mapped = true ↔ c.fileInfo.isDir = false)) ∧
      (∀ i, i < L.length → nodeAt m'._nodes (p ++ [i]) = n'.children[i]?) ∧
      (∀ R : QFileInfo → QFileInfo → Prop, L.Pairwise R →
        n'.children.Pairwise (fun a b => R a.fileInfo b.fileInfo)) := by
  have hc : n0.children = [] := (treeOK_of_reachable hr p n0 hn).1 hm
  have hE : QDir.entryInfoList listDir n0.fileInfo.absoluteFilePath = L := by
    simp [QDir.entryInfoList, hL]
  have hne : p ≠ [] := nodeAt_ne_nil hn
  have hself : nodeAt (modifyAt (expand p L) m._nodes p) p = some (expand p L n0) := by
    rw [nodeAt_modifyAt_self, hn]
    rfl
  have hch : (expand p L n0).children = L.map (childOf p) := by
    rw [expand_children, hc, List.nil_append]
  refine ⟨_, _, expand p L n0, fetchMore_eq listDir hv hp hn hm hd, ?_, rfl, ?_, ?_, ?_, ?_, ?_⟩
  · rw [hE]
    exact hself
  · rw [hch, List.length_map]
  · rw [hch, List.map_map]
    conv_rhs => rw [← List.map_id L]
    rfl
  · intro c hcmem
    rw [hch, List.mem_map] at hcmem
    obtain ⟨e, _, rfl⟩ := hcmem
    refine ⟨rfl, ?_⟩
    rw [childOf_mapped, childOf_fileInfo]
    cases e.isDir <;> simp
  · intro i _
    rw [hE]
    simp only
    rw [nodeAt_append _ p [i] hne (by simp), hself]
    simp [nodeAt_single]
  · intro R hR
    rw [hch, List.pairwise_map]
    exact hR

/-- A completed call leaves every mapped node in place, mapped, with as many
children as before. -/
theorem step_keeps_mapped {m m' : FilesystemModel} (hs : Step m m') {a : NodePtr}
    {n : NodeInfo} (hn : nodeAt m._nodes a = some n) (hm : n.mapped = true) :
    ∃ n', nodeAt m'._nodes a = some n' ∧ n'.mapped = true ∧
      n'.children.length = n.children.length := by
  have other : ∀ (f : NodeInfo → NodeInfo) (p : NodePtr), (∀ q, a ≠ p ++ q) →
      ∃ n', nodeAt (modifyAt f m._nodes p) a = some n' ∧ n'.mapped = true ∧
        n'.children.length = n.children.length := by
    intro f p hpa
    obtain ⟨g, hg, heq⟩ := nodeAt_modifyAt_other f m._nodes p a hpa
    refine ⟨g n, by rw [heq, hn]; rfl, ?_, (hg n).2.2.2⟩
    rw [(hg n).2.2.1, hm]
  cases hs with
  | fetchMore parent listDir ev _ h =>
    obtain ⟨p, n0, _, _, hn0, hm0, _, rfl⟩ := fetchMore_some h
    by_cases hpa : ∃ q, a = p ++ q
    · obtain ⟨q, rfl⟩ := hpa
      by_cases hq : q = []
      · subst hq
        rw [List.append_nil, hn0] at hn
        cases hn
        rw [hm0] at hm
        cases hm
      · refine ⟨n, ?_, hm, rfl⟩
        simp only
        rw [nodeAt_modifyAt_below _ _ p q (nodeAt_ne_nil hn0) hq, hn0]
        rw [nodeAt_append _ p q (nodeAt_ne_nil hn0) hq, hn0] at hn
        exact nodeAt_append_left _ hn
    · exact other _ p (fun q hq => hpa ⟨q, hq⟩)
  | setData index value role separator rename stat ev r _ h =>
    rcases setData_some h with rfl | ⟨p, n0, _, hn0, rfl⟩
    · exact ⟨n, hn, hm, rfl⟩
    · by_cases hpa : ∃ q, a = p ++ q
      · obtain ⟨q, rfl⟩ := hpa
        by_cases hq : q = []
        · subst hq
          rw [List.append_nil] at hn ⊢
          refine ⟨renameNode stat (n0.fileInfo.absoluteDirPath ++ "/" ++ value) n, ?_, hm, rfl⟩
          simp only
          rw [nodeAt_modifyAt_self, hn]
          rfl
        · refine ⟨n, ?_, hm, rfl⟩
          simp only
          rw [nodeAt_modifyAt_below _ _ p q (nodeAt_ne_nil hn0) hq, hn0]
          rw [nodeAt_append _ p q (nodeAt_ne_nil hn0) hq, hn0] at hn
          exact hn
      · exact other _ p (fun q hq => hpa ⟨q, hq⟩)

theorem steps_keep_mapped {m m' : FilesystemModel} (hs : Steps m m') {a : NodePtr}
    {n : NodeInfo} (hn : nodeAt m._nodes a = some n) (hm : n.mapped = true) :
    ∃ n', nodeAt m'._nodes a = some n' ∧ n'.mapped = true ∧
      n'.children.length = n.children.length := by
  induction hs with
  | refl => exact ⟨n, hn, hm, rfl⟩
  | tail m' m'' _ hstep ih =>
    obtain ⟨n', hn', hm', hl'⟩ := ih
    obtain ⟨n'', hn'', hm'', hl''⟩ := step_keeps_mapped hstep hn' hm'
    exact ⟨n'', hn'', hm'', hl''.trans hl'⟩

/-- C8: once a node is expanded, in every later state (after any number of
completed calls) it is still there, still mapped, with the same number of
children, and `fetchMore` on it fails its precondition before any listing is
made (no effect at all) for whatever the listing would answer. -/
theorem fetchMore_at_most_once (m m' : FilesystemModel) (p : NodePtr) (n : NodeInfo)
    (hn : nodeAt m._nodes p = some n) (hm : n.mapped = true) (hs : Steps m m') :
    (∃ n', nodeAt m'._nodes p = some n' ∧ n'.mapped = true ∧
      n'.children.length = n.children.length) ∧
    ∀ (parent : QModelIndex) (listDir : String → Option (List QFileInfo)),
      parent.internalPointer = some p → fetchMore m' parent listDir = ([], none) := by
  obtain ⟨n', hn', hm', hl'⟩ := steps_keep_mapped hs hn hm
  refine ⟨⟨n', hn', hm', hl'⟩, ?_⟩
  intro parent listDir hp
  unfold fetchMore
  split
  · rfl
  · simp [hp, hn', hm']

end FilesystemModel

namespace FilesystemModel

/-- C2: when the listing fails, `fetchMore` reports no failure: the call completes
like any other and leaves the node mapped, with no children; `canFetchMore` is
then false and a later `fetchMore` on the node fails its precondition. -/
theorem fetchMore_listing_failure (m : FilesystemModel) (hr : Reachable m)
    (parent : QModelIndex) (listDir : String → Option (List QFileInfo)) (p : NodePtr)
    (n0 : NodeInfo) (hv : parent.isValid = true) (hp : parent.internalPointer = some p)
    (hn : nodeAt m._nodes p = some n0) (hm : n0.mapped = false)
    (hd : n0.fileInfo.isDir = true) (hfail : listDir n0.fileInfo.absoluteFilePath = none) :
    ∃ ev m' n', fetchMore m parent listDir = (ev, some m') ∧
      nodeAt m'._nodes p = some n' ∧ n'.mapped = true ∧ n'.children = [] ∧
      canFetchMore m' parent = some false ∧
      ∀ listDir', fetchMore m' parent listDir' = ([], none) := by
  have hc : n0.children = [] := (treeOK_of_reachable hr p n0 hn).1 hm
  have hE : QDir.entryInfoList listDir n0.fileInfo.absoluteFilePath = [] := by
    simp [QDir.entryInfoList, hfail]
  have hself : nodeAt (modifyAt (expand p []) m._nodes p) p = some (expand p [] n0) := by
    rw [nodeAt_modifyAt_self, hn]
    rfl
  refine ⟨(fetchMore m parent listDir).1, ⟨modifyAt (expand p []) m._nodes p⟩, expand p [] n0,
    ?_, hself, rfl, ?_, ?_, ?_⟩
  · rw [fetchMore_eq listDir hv hp hn hm hd, hE]
  · rw [expand_children, hc]
    rfl
  · unfold canFetchMore
    simp only [hv, hp]
    rw [hself]
    rfl
  · intro listDir'
    unfold fetchMore
    simp only [hv, hp]
    rw [hself]
    rfl

/-! ## Rename of a root -/

/-- What `setData` does once the guards on index, role, column and name are
passed and the pointer is live. -/
theorem setData_eq (m : FilesystemModel) (index : QModelIndex) (p : NodePtr) (n : NodeInfo)
    (value : String) (separator : Char) (rename : String → String → Bool)
    (stat : String → QFileInfo)
    (hv : index.isValid = true) (hc : index.column = NameColumn)
    (hp : index.internalPointer = some p) (hn : nodeAt m._nodes p = some n)
    (hsep : ¬ ('/' ∈ value.toList ∨ separator ∈ value.toList)) :
    setData m index value Qt.EditRole separator rename stat =
      if rename n.fileInfo.absoluteFilePath (n.fileInfo.absoluteDirPath ++ "/" ++ value) = true
      then
        match sibling ⟨modifyAt (renameNode stat (n.fileInfo.absoluteDirPath ++ "/" ++ value))
            m._nodes p⟩ index index.row ColumnCount with
        | none => ([Effect.rename n.fileInfo.absoluteFilePath
            (n.fileInfo.absoluteDirPath ++ "/" ++ value)], none)
        | some s => ([Effect.rename n.fileInfo.absoluteFilePath
            (n.fileInfo.absoluteDirPath ++ "/" ++ value), Effect.dataChanged index s],
            some (true, ⟨modifyAt (renameNode stat (n.fileInfo.absoluteDirPath ++ "/" ++ value))
              m._nodes p⟩))
      else ([Effect.rename n.fileInfo.absoluteFilePath
        (n.fileInfo.absoluteDirPath ++ "/" ++ value)], some (false, m)) := by
  unfold setData
  rw [if_neg (by simp [hv]), if_neg (by simp), if_neg (by simp [hc])]
  simp only [if_neg hsep, hp, hn]
  cases hren : rename n.fileInfo.absoluteFilePath (n.fileInfo.absoluteDirPath ++ "/" ++ value)
  · simp
  · simp only [if_true]

/-- C4: the only guard against renaming a root is `flags`, which leaves
`ItemIsEditable` unset for it.  `setData` does not look at root-ness: with the
edit role, the name column and a separator-free name it calls `QFile::rename`
with the path of the root and `absoluteDir + "/" + name` and returns what that
call returns; when the call refuses, nothing else happens and the model is
unchanged. -/
theorem setData_root (m : FilesystemModel) (index : QModelIndex) (p : NodePtr) (n : NodeInfo)
    (value : String) (separator : Char) (rename : String → String → Bool)
    (stat : String → QFileInfo)
    (hv : index.isValid = true) (hc : index.column = NameColumn)
    (hp : index.internalPointer = some p) (hn : nodeAt m._nodes p = some n)
    (hpar : n.parent = none) (hroot : n.fileInfo.isRoot = true)
    (hsep : ¬ ('/' ∈ value.toList ∨ separator ∈ value.toList)) :
    flags m index = some (Qt.ItemIsSelectable ||| Qt.ItemIsEnabled) ∧
    (Qt.ItemIsSelectable ||| Qt.ItemIsEnabled) &&& Qt.ItemIsEditable = 0 ∧
    ∃ ev m', setData m index value Qt.EditRole separator rename stat =
        (Effect.rename n.fileInfo.absoluteFilePath
            (n.fileInfo.absoluteDirPath ++ "/" ++ value) :: ev,
          some (rename n.fileInfo.absoluteFilePath
            (n.fileInfo.absoluteDirPath ++ "/" ++ value), m')) ∧
      (rename n.fileInfo.absoluteFilePath (n.fileInfo.absoluteDirPath ++ "/" ++ value) = false →
        ev = [] ∧ m' = m) := by
  refine ⟨?_, by decide, ?_⟩
  · unfold flags baseFlags
    simp [hv, hc, hp, hn, hroot]
  · have hmodel : index.model = true := by
      unfold QModelIndex.isValid at hv
      simp only [Bool.and_eq_true] at hv
      exact hv.2
    have hrow : ¬ index.row < 0 := by
      unfold QModelIndex.isValid at hv
      simp only [Bool.and_eq_true, decide_eq_true_eq] at hv
      omega
    cases hren : rename n.fileInfo.absoluteFilePath (n.fileInfo.absoluteDirPath ++ "/" ++ value)
    · refine ⟨[], m, ?_, fun _ => ⟨rfl, rfl⟩⟩
      rw [setData_eq m index p n value separator rename stat hv hc hp hn hsep, hren]
      rfl
    · have hself : nodeAt (modifyAt (renameNode stat (n.fileInfo.absoluteDirPath ++ "/" ++ value))
          m._nodes p) p = some (renameNode stat (n.fileInfo.absoluteDirPath ++ "/" ++ value) n) := by
        rw [nodeAt_modifyAt_self, hn]
        rfl
      have hparent : parent ⟨modifyAt (renameNode stat (n.fileInfo.absoluteDirPath ++ "/" ++ value))
          m._nodes p⟩ index = some QModelIndex.invalid := by
        unfold parent
        simp only [hv, hp]
        rw [hself]
        simp [hpar]
      have hsib : sibling ⟨modifyAt (renameNode stat (n.fileInfo.absoluteDirPath ++ "/" ++ value))
          m._nodes p⟩ index index.row ColumnCount = some QModelIndex.invalid := by
        unfold sibling
        rw [hparent]
        simp only [hmodel, hc]
        unfold FilesystemModel.index hasIndex
        simp [hrow, NameColumn, RamificationColumn, ColumnCount, columnCount, rowCount,
          QModelIndex.isValid, QModelIndex.invalid]
      refine ⟨[Effect.dataChanged index QModelIndex.invalid],
        ⟨modifyAt (renameNode stat (n.fileInfo.absoluteDirPath ++ "/" ++ value)) m._nodes p⟩, ?_,
        fun h => by cases h⟩
      rw [setData_eq m index p n value separator rename stat hv hc hp hn hsep, hren, if_pos rfl,
        hsib]

end FilesystemModel

/-! ## Where the round trip holds -/

mutual
theorem NodeInfo.opEq_self : ∀ n : NodeInfo, n.opEq n = some true
  | .mk f c p b => by
    have h := NodeInfo.equalRange_self c
    simp [NodeInfo.opEq, QFileInfo.sameFile, h]
theorem NodeInfo.equalRange_self : ∀ l : List NodeInfo, NodeInfo.equalRange l l = some true
  | [] => by simp [NodeInfo.equalRange]
  | a :: as => by
    have h1 := NodeInfo.opEq_self a
    have h2 := NodeInfo.equalRange_self as
    simp [NodeInfo.equalRange, h1, h2]
end

theorem NodeInfo.opEq_of_ne {a b : NodeInfo}
    (h : QFileInfo.sameFile a.fileInfo b.fileInfo = false) : a.opEq b = some false := by
  cases a with
  | mk fa ca pa ma =>
    cases b with
    | mk fb cb pb mb =>
      simp only [NodeInfo.fileInfo_mk] at h
      simp [NodeInfo.opEq, h]

theorem qFind_of_distinct {l : List NodeInfo} (hd : DistinctPaths l) {i : Nat} {n : NodeInfo}
    (hn : l[i]? = some n) : qFind l n = some i := by
  induction l generalizing i with
  | nil => simp at hn
  | cons e es ih =>
    rw [DistinctPaths, List.pairwise_cons] at hd
    cases i with
    | zero =>
      simp only [List.getElem?_cons_zero, Option.some.injEq] at hn
      subst hn
      simp [qFind, NodeInfo.opEq_self]
    | succ j =>
      simp only [List.getElem?_cons_succ] at hn
      have hne : QFileInfo.sameFile e.fileInfo n.fileInfo = false :=
        hd.1 n (List.getElem?_mem hn)
      simp [qFind, NodeInfo.opEq_of_ne hne, ih hd.2 hn]

namespace FilesystemModel

theorem nodeAt_snoc (ns : List NodeInfo) (q : NodePtr) (i : Nat) (hq : q ≠ []) :
    nodeAt ns (q ++ [i]) = (nodeAt ns q).bind (fun n => n.children[i]?) := by
  rw [nodeAt_append ns q [i] hq (by simp)]
  cases nodeAt ns q <;> simp [nodeAt_single]

theorem findRow_of_distinct (m : FilesystemModel) (hok : TreeOK m) (hd : DistinctSiblings m)
    (q : NodePtr) (i : Nat) (n : NodeInfo) (hn : nodeAt m._nodes (q ++ [i]) = some n) :
    findRow m (some (q ++ [i])) = some (i : Int) := by
  have hpar := (hok _ n hn).2
  by_cases hq : q = []
  · subst hq
    simp only [List.nil_append] at hn hpar ⊢
    rw [nodeAt_single] at hn
    have hlt : i < m._nodes.length := (List.getElem?_eq_some_iff.mp hn).1
    unfold findRow
    simp only [nodeAt_single, hn, hpar]
    have : parentPtr [i] = none := rfl
    simp only [this, qFind_of_distinct hd.1 hn]
    simp [Nat.ne_of_lt hlt]
  · rw [parentPtr_snoc q i hq] at hpar
    have hn' := hn
    rw [nodeAt_snoc _ q i hq] at hn'
    cases hpn : nodeAt m._nodes q with
    | none => rw [hpn] at hn'; cases hn'
    | some pn =>
      rw [hpn] at hn'
      simp only [Option.some_bind] at hn'
      have hlt : i < pn.children.length := (List.getElem?_eq_some_iff.mp hn').1
      unfold findRow
      simp only [hn, hpar, hpn, Option.map_some', qFind_of_distinct (hd.2 q pn hpn) hn']
      simp [Nat.ne_of_lt hlt]

theorem distinctPaths_iff (l : List NodeInfo) :
    DistinctPaths l ↔ DistinctInfos (l.map NodeInfo.fileInfo) := by
  unfold DistinctPaths DistinctInfos
  rw [List.pairwise_map]

theorem distinctSiblings_construct (drives : List QFileInfo) (h : DistinctInfos drives) :
    DistinctSiblings (construct drives) := by
  refine ⟨?_, ?_⟩
  · rw [distinctPaths_iff]
    simp only [construct, fetchRootDirectory, List.nil_append, List.map_map]
    have : (NodeInfo.fileInfo ∘ fun d => NodeInfo.new d none) = id := by
      funext d
      rfl
    rw [this, List.map_id]
    exact h
  · intro a n ha
    simp only [construct, fetchRootDirectory, List.nil_append] at ha
    have key : ∀ (i : Nat) (x : NodeInfo),
        (drives.map (fun d => NodeInfo.new d none))[i]? = some x →
        x.children = [] := by
      intro i x hx
      rw [List.getElem?_map] at hx
      cases hd : drives[i]? with
      | none => rw [hd] at hx; cases hx
      | some d =>
        rw [hd] at hx
        simp only [Option.map_some', Option.some.injEq] at hx
        subst hx
        rfl
    cases a with
    | nil => rw [nodeAt_nil] at ha; cases ha
    | cons i rest =>
      by_cases hr : rest = []
      · subst hr
        rw [nodeAt_single] at ha
        rw [key i n ha]
        exact List.Pairwise.nil
      · rw [nodeAt_cons _ i rest hr] at ha
        cases hx : (drives.map (fun d => NodeInfo.new d none))[i]? with
        | none => rw [hx] at ha; cases ha
        | some x =>
          rw [hx] at ha
          simp only [Option.some_bind, key i x hx, nodeAt_nil_list] at ha
          cases ha

theorem distinctSiblings_fetchMore {m m' : FilesystemModel} {parent : QModelIndex}
    {listDir : String → Option (List QFileInfo)} {ev : List Effect} (hok : TreeOK m)
    (hd : DistinctSiblings m) (hL : ∀ path, DistinctInfos (QDir.entryInfoList listDir path))
    (h : fetchMore m parent listDir = (ev, some m')) : DistinctSiblings m' := by
  obtain ⟨p, n0, _, _, hn0, hm, _, rfl⟩ := fetchMore_some h
  have hc : n0.children = [] := (hok p n0 hn0).1 hm
  have hf : ∀ n, (expand p (QDir.entryInfoList listDir n0.fileInfo.absoluteFilePath) n).fileInfo
      = n.fileInfo := fun _ => rfl
  refine ⟨?_, ?_⟩
  · rw [distinctPaths_iff]
    simp only
    rw [modifyAt_map_fileInfo _ hf, ← distinctPaths_iff]
    exact hd.1
  · intro a n' ha
    simp only at ha
    by_cases hpa : ∃ q, a = p ++ q
    · obtain ⟨q, rfl⟩ := hpa
      by_cases hq : q = []
      · subst hq
        rw [List.append_nil, nodeAt_modifyAt_self, hn0] at ha
        cases ha
        rw [distinctPaths_iff, expand_children, hc, List.nil_append, List.map_map]
        have : (NodeInfo.fileInfo ∘ childOf p) = id := by
          funext e
          rfl
        rw [this, List.map_id]
        exact hL _
      · rw [nodeAt_modifyAt_below _ _ p q (nodeAt_ne_nil hn0) hq, hn0] at ha
        simp only [Option.some_bind, expand_children, hc, List.nil_append] at ha
        obtain ⟨i, e, _, _, rfl⟩ := nodeAt_children_map_childOf ha
        rw [childOf_children]
        exact List.Pairwise.nil
    · obtain ⟨g, hg, heq⟩ := nodeAt_modifyAt_shape _ m._nodes p a (fun q hq => hpa ⟨q, hq⟩)
      rw [heq] at ha
      cases hn : nodeAt m._nodes a with
      | none => rw [hn] at ha; cases ha
      | some n =>
        rw [hn] at ha
        cases ha
        rcases hg n with hgn | ⟨rest, _, hgn⟩
        · rw [hgn]
          exact hd.2 a n hn
        · rw [hgn, distinctPaths_iff]
          simp only [NodeInfo.withChildren, NodeInfo.children_mk]
          rw [modifyAt_map_fileInfo _ hf, ← distinctPaths_iff]
          exact hd.2 a n hn

theorem CleanRun.reachable {m : FilesystemModel} (h : CleanRun m) : Reachable m := by
  induction h with
  | construct drives hd _ => exact Reachable.construct drives hd
  | fetchMore m parent listDir ev m' _ _ hf ih =>
    exact Reachable.step m m' ih (Step.fetchMore m parent listDir ev m' hf)
  | setData m index value role separator rename stat ev r m' _ hs _ ih =>
    exact Reachable.step m m' ih (Step.setData m index value role separator rename stat ev r m' hs)

theorem CleanRun.distinct {m : FilesystemModel} (h : CleanRun m) : DistinctSiblings m := by
  induction h with
  | construct drives _ hd => exact distinctSiblings_construct drives hd
  | fetchMore m parent listDir ev m' hrun hL hf ih =>
    exact distinctSiblings_fetchMore (treeOK_of_reachable hrun.reachable) ih hL hf
  | setData m index value role separator rename stat ev r m' _ _ hd _ => exact hd

/-- In a reachable state in which no vector holds two nodes whose `fileInfo`s
compare equal, addressing round-trips: for every node and every column of the model, `index`
at the row `findRow` gives, under `parent` of the node, is the node. -/
theorem round_trip_of_distinct (m : FilesystemModel) (hr : Reachable m)
    (hd : DistinctSiblings m) (a : NodePtr) (n : NodeInfo) (hn : nodeAt m._nodes a = some n)
    (column : Int) (hc0 : 0 ≤ column) (hc1 : column < ColumnCount) :
    ∃ r pidx, findRow m (some a) = some r ∧
      parent m (createIndex r column a) = some pidx ∧
      index m r column pidx = some (createIndex r column a) := by
  have hok := treeOK_of_reachable hr
  have hane : a ≠ [] := nodeAt_ne_nil hn
  obtain ⟨q, i, rfl⟩ : ∃ q i, a = q ++ [i] :=
    ⟨a.dropLast, a.getLast hane, (List.dropLast_append_getLast hane).symm⟩
  have hfind := findRow_of_distinct m hok hd q i n hn
  have hpar := (hok _ n hn).2
  have hvalid : ∀ (r c : Int) (ptr : NodePtr), 0 ≤ r → 0 ≤ c →
      (createIndex r c ptr).isValid = true := by
    intro r c ptr hr0 hc
    simp [createIndex, QModelIndex.isValid, hr0, hc]
  have hi0 : (0 : Int) ≤ (i : Int) := Int.ofNat_nonneg i
  have hcol : ¬ ((i : Int) < 0 ∨ column < 0) := by omega
  refine ⟨(i : Int), ?_⟩
  by_cases hq : q = []
  · subst hq
    simp only [List.nil_append] at hn hpar hfind ⊢
    have hn' := hn
    rw [nodeAt_single] at hn'
    have hlt : i < m._nodes.length := (List.getElem?_eq_some_iff.mp hn').1
    have hpn : parentPtr [i] = none := rfl
    rw [hpn] at hpar
    refine ⟨QModelIndex.invalid, hfind, ?_, ?_⟩
    · unfold parent
      rw [hvalid _ _ _ hi0 hc0]
      simp [createIndex, hn, hpar]
    · unfold index hasIndex rowCount columnCount
      have hlt' : (i : Int) < (m._nodes.length : Int) := by exact_mod_cast hlt
      simp [QModelIndex.invalid, QModelIndex.isValid, hcol, hlt', hc1]
  · rw [parentPtr_snoc q i hq] at hpar
    have hn' := hn
    rw [nodeAt_snoc _ q i hq] at hn'
    cases hpn : nodeAt m._nodes q with
    | none => rw [hpn] at hn'; cases hn'
    | some pn =>
      rw [hpn] at hn'
      simp only [Option.some_bind] at hn'
      have hlt : i < pn.children.length := (List.getElem?_eq_some_iff.mp hn').1
      have hlt' : (i : Int) < (pn.children.length : Int) := by exact_mod_cast hlt
      have hmapped : pn.mapped = true := by
        cases hm : pn.mapped with
        | true => rfl
        | false =>
          have := (hok q pn hpn).1 hm
          rw [this] at hlt
          simp at hlt
      have hqne : q ≠ [] := hq
      obtain ⟨q', j, rfl⟩ : ∃ q' j, q = q' ++ [j] :=
        ⟨q.dropLast, q.getLast hqne, (List.dropLast_append_getLast hqne).symm⟩
      have hfindq := findRow_of_distinct m hok hd q' j pn hpn
      have hj0 : (0 : Int) ≤ (j : Int) := Int.ofNat_nonneg j
      refine ⟨createIndex (j : Int) RamificationColumn (q' ++ [j]), hfind, ?_, ?_⟩
      · unfold parent
        rw [hvalid _ _ _ hi0 hc0]
        simp only [createIndex, hn, hpar, hfindq]
        rfl
      · have hv := hvalid (j : Int) RamificationColumn (q' ++ [j]) hj0 (by decide)
        unfold index hasIndex rowCount columnCount
        simp only [hv]
        simp only [createIndex, hpn]
        simp [hcol, hlt', hc1, hmapped]

/-- In every state of a run whose drive enumeration and listings hold no two
infos that compare equal and whose renames leave no vector with two nodes whose
`fileInfo`s compare equal, in particular in every state such listings and
expansions alone lead to, addressing round-trips for every node. -/
theorem round_trip_clean_run (m : FilesystemModel) (hrun : CleanRun m) (a : NodePtr)
    (n : NodeInfo) (hn : nodeAt m._nodes a = some n) (column : Int) (hc0 : 0 ≤ column)
    (hc1 : column < ColumnCount) :
    ∃ r pidx, findRow m (some a) = some r ∧
      parent m (createIndex r column a) = some pidx ∧
      index m r column pidx = some (createIndex r column a) :=
  round_trip_of_distinct m hrun.reachable hrun.distinct a n hn column hc0 hc1

end FilesystemModel

namespace FilesystemModel

/-! ## What a rename leaves alone -/

/-- For a live node behind a valid name-column index and a separator-free name,
`setData` first calls `QFile::rename` with the old path and
`absoluteDir + "/" + name`; when that call refuses, `setData` answers false and
the model is unchanged; whenever `setData` completes, it answers what the call
answered, and the node behind the same pointer is the old node with, on
success, the info built for the new path: same children, same `mapped`, same
`parent`. -/
theorem setData_frame (m : FilesystemModel) (index : QModelIndex) (p : NodePtr) (n : NodeInfo)
    (value : String) (separator : Char) (rename : String → String → Bool)
    (stat : String → QFileInfo)
    (hv : index.isValid = true) (hc : index.column = NameColumn)
    (hp : index.internalPointer = some p) (hn : nodeAt m._nodes p = some n)
    (hsep : ¬ ('/' ∈ value.toList ∨ separator ∈ value.toList)) :
    (∃ ev, (setData m index value Qt.EditRole separator rename stat).1 =
      Effect.rename n.fileInfo.absoluteFilePath
        (n.fileInfo.absoluteDirPath ++ "/" ++ value) :: ev ∧
      ∀ o o', Effect.rename o o' ∉ ev) ∧
    (rename n.fileInfo.absoluteFilePath (n.fileInfo.absoluteDirPath ++ "/" ++ value) = false →
      (setData m index value Qt.EditRole separator rename stat).2 = some (false, m)) ∧
    (∀ r m', (setData m index value Qt.EditRole separator rename stat).2 = some (r, m') →
      r = rename n.fileInfo.absoluteFilePath (n.fileInfo.absoluteDirPath ++ "/" ++ value) ∧
      ∃ n', nodeAt m'._nodes p = some n' ∧ n'.children = n.children ∧
        n'.mapped = n.mapped ∧ n'.parent = n.parent ∧
        n'.fileInfo =
          (if r then QFileInfo.fresh stat (n.fileInfo.absoluteDirPath ++ "/" ++ value)
            else n.fileInfo) ∧
        n'.fileInfo.filePath =
          if r then n.fileInfo.absoluteDirPath ++ "/" ++ value else n.fileInfo.filePath) := by
  have heq := setData_eq m index p n value separator rename stat hv hc hp hn hsep
  have hself : nodeAt (modifyAt (renameNode stat (n.fileInfo.absoluteDirPath ++ "/" ++ value))
      m._nodes p) p = some (renameNode stat (n.fileInfo.absoluteDirPath ++ "/" ++ value) n) := by
    rw [nodeAt_modifyAt_self, hn]
    rfl
  cases hren : rename n.fileInfo.absoluteFilePath (n.fileInfo.absoluteDirPath ++ "/" ++ value)
  · rw [hren] at heq
    simp only [Bool.false_eq_true, if_false] at heq
    rw [heq]
    refine ⟨⟨[], rfl, by simp⟩, fun _ => rfl, ?_⟩
    intro r m' h
    simp only [Option.some.injEq, Prod.mk.injEq] at h
    obtain ⟨rfl, rfl⟩ := h
    exact ⟨rfl, n, hn, rfl, rfl, rfl, by simp, by simp⟩
  · rw [hren] at heq
    simp only [if_true] at heq
    cases hsib : sibling ⟨modifyAt (renameNode stat (n.fileInfo.absoluteDirPath ++ "/" ++ value))
        m._nodes p⟩ index index.row ColumnCount with
    | none =>
      rw [hsib] at heq
      rw [heq]
      refine ⟨⟨[], rfl, by simp⟩, (fun h => Bool.noConfusion h), ?_⟩
      intro r m' h
      cases h
    | some s =>
      rw [hsib] at heq
      rw [heq]
      refine ⟨⟨[Effect.dataChanged index s], rfl, by simp⟩, (fun h => Bool.noConfusion h), ?_⟩
      intro r m' h
      simp only [Option.some.injEq, Prod.mk.injEq] at h
      obtain ⟨rfl, rfl⟩ := h
      exact ⟨rfl, _, hself, rfl, rfl, rfl, by simp, by simp⟩

/-! ## The announced row range -/

/-- For a listing that is not empty the range announced through
`beginInsertRows` is the range of the rows appended: it starts at 0 and its
size is the `rowCount` of the node after the call. -/
theorem fetchMore_range_nonempty (m : FilesystemModel) (hr : Reachable m)
    (parent : QModelIndex) (listDir : String → Option (List QFileInfo)) (p : NodePtr)
    (n0 : NodeInfo) (L : List QFileInfo) (hv : parent.isValid = true)
    (hp : parent.internalPointer = some p) (hn : nodeAt m._nodes p = some n0)
    (hm : n0.mapped = false) (hd : n0.fileInfo.isDir = true)
    (hL : listDir n0.fileInfo.absoluteFilePath = some L) (hne : L ≠ []) :
    ∃ last m', fetchMore m parent listDir =
        ([Effect.entryInfoList n0.fileInfo.absoluteFilePath,
          Effect.beginInsertRows parent 0 last, Effect.endInsertRows], some m') ∧
      rowCount m' parent = some (last - 0 + 1) ∧ last - 0 + 1 = (L.length : Int) := by
  have hc : n0.children = [] := (treeOK_of_reachable hr p n0 hn).1 hm
  have hE : QDir.entryInfoList listDir n0.fileInfo.absoluteFilePath = L := by
    simp [QDir.entryInfoList, hL]
  have hlen : 0 < L.length := List.length_pos.mpr hne
  have hself : nodeAt (modifyAt (expand p L) m._nodes p) p = some (expand p L n0) := by
    rw [nodeAt_modifyAt_self, hn]
    rfl
  refine ⟨(L.length : Int) - 1, ⟨modifyAt (expand p L) m._nodes p⟩, ?_, ?_, by omega⟩
  · rw [fetchMore_eq listDir hv hp hn hm hd, hE, if_neg (by omega)]
  · unfold rowCount
    simp only [hv, hp]
    rw [hself]
    simp [hc]

end FilesystemModel

/-! ## The example run -/

namespace Scenario

open FilesystemModel

theorem reachable_s0 : Reachable s0 :=
  Reachable.construct [drive] (by decide)

theorem step_s0_s1 : Step s0 s1 :=
  Step.fetchMore s0 (createIndex 0 0 [0]) listing _ s1 rfl

theorem step_s1_s2 : Step s1 s2 :=
  Step.fetchMore s1 (createIndex 0 0 [0, 0]) listing _ s2 rfl

theorem step_s2_s3 : Step s2 s3 :=
  Step.fetchMore s2 (createIndex 0 0 [0, 0, 0]) listing _ s3 rfl

theorem step_s3_s4 : Step s3 s4 :=
  Step.setData s3 (createIndex 0 0 [0, 0, 0]) "e" Qt.EditRole '/' accept stat _ true s4 rfl

theorem step_s4_s5 : Step s4 s5 :=
  Step.setData s4 (createIndex 1 0 [0, 0, 1]) "d" Qt.EditRole '/' accept stat _ true s5 rfl

theorem step_s5_s6 : Step s5 s6 :=
  Step.setData s5 (createIndex 2 0 [0, 0, 0, 2]) "a.txt" Qt.EditRole '/' accept stat _ true s6 rfl

theorem reachable_s2 : Reachable s2 :=
  Reachable.step _ _ (Reachable.step _ _ reachable_s0 step_s0_s1) step_s1_s2

theorem reachable_s3 : Reachable s3 :=
  Reachable.step _ _ reachable_s2 step_s2_s3

theorem reachable_s5 : Reachable s5 :=
  Reachable.step _ _ (Reachable.step _ _ reachable_s3 step_s3_s4) step_s4_s5

theorem reachable_s6 : Reachable s6 :=
  Reachable.step _ _ reachable_s5 step_s5_s6

theorem reachable_s6z : Reachable s6z :=
  Reachable.step _ _ reachable_s5
    (Step.setData s5 (createIndex 0 0 [0, 0, 0, 0]) "z" Qt.EditRole '/' accept stat _ true
      s6z rfl)

/-- The tree after the three expansions and the three renames. -/
theorem s6_tree :
    s6 = ⟨[NodeInfo.mk drive
      [NodeInfo.mk (dir "/r")
        [NodeInfo.mk (dir "/r/e")
          [NodeInfo.mk (dir "/r/d/C") [] (some [0, 0, 0]) false,
           NodeInfo.mk (file "/r/d/a.txt") [] (some [0, 0, 0]) true,
           NodeInfo.mk (file "/r/d/a.txt") [] (some [0, 0, 0]) true]
          (some [0, 0]) true,
         NodeInfo.mk (dir "/r/d") [] (some [0, 0]) false]
        (some [0]) true]
      none true]⟩ :=
  rfl

theorem steps_s3_s6 : Steps s3 s6 :=
  Steps.tail _ _ _ (Steps.tail _ _ _ (Steps.tail _ _ _ (Steps.refl s3) step_s3_s4)
    step_s4_s5) step_s5_s6

end Scenario

namespace FilesystemModel

open Scenario

/-- C5, at an input: the name `../a.txt` for the file `/r/d/a.txt` is refused
without any effect. -/
theorem setData_rejects_separator_witness :
    '/' ∈ "../a.txt".toList ∧
    setData s3 (createIndex 1 0 [0, 0, 0, 1]) "../a.txt" Qt.EditRole '/' accept stat =
      ([], some (false, s3)) :=
  ⟨by decide, setData_rejects_separator s3 (createIndex 1 0 [0, 0, 0, 1]) "../a.txt"
    Qt.EditRole '/' accept stat (Or.inl (by decide))⟩

/-- C3, at an input: expanding `/r/d` gives the children `C`, `a.txt`, `b.txt`
in the order of the listing. -/
theorem fetchMore_postcondition_witness :
    ∃ ev m' n', fetchMore s2 (createIndex 0 0 [0, 0, 0]) listing = (ev, some m') ∧
      nodeAt m'._nodes [0, 0, 0] = some n' ∧ n'.mapped = true ∧
      n'.children.map NodeInfo.fileInfo =
        [dir "/r/d/C", file "/r/d/a.txt", file "/r/d/b.txt"] := by
  obtain ⟨ev, m', n', h1, h2, h3, _, h5, _⟩ :=
    fetchMore_postcondition s2 reachable_s2 (createIndex 0 0 [0, 0, 0]) listing [0, 0, 0]
      (NodeInfo.mk (dir "/r/d") [] (some [0, 0]) false)
      [dir "/r/d/C", file "/r/d/a.txt", file "/r/d/b.txt"] rfl rfl rfl rfl rfl rfl
  exact ⟨ev, m', n', h1, h2, h3, h5⟩

/-- C8, at an input: after the three renames the expanded directory still has
its three children and cannot be expanded again. -/
theorem fetchMore_at_most_once_witness :
    (∃ n', nodeAt s6._nodes [0, 0, 0] = some n' ∧ n'.mapped = true ∧
      n'.children.length = 3) ∧
    fetchMore s6 (createIndex 0 0 [0, 0, 0]) listing = ([], none) :=
  have h := fetchMore_at_most_once s3 s6 [0, 0, 0]
    (NodeInfo.mk (dir "/r/d")
      [NodeInfo.mk (dir "/r/d/C") [] (some [0, 0, 0]) false,
       NodeInfo.mk (file "/r/d/a.txt") [] (some [0, 0, 0]) true,
       NodeInfo.mk (file "/r/d/b.txt") [] (some [0, 0, 0]) true] (some [0, 0]) true)
    rfl rfl steps_s3_s6
  ⟨h.1, h.2 (createIndex 0 0 [0, 0, 0]) listing rfl⟩

/-- C2, at an input: after a failed listing of the drive the drive is mapped,
`canFetchMore` is false for it and a later `fetchMore` on it fails its
precondition. -/
theorem fetchMore_failure_counterexample :
    (fetchMore s0 (createIndex 0 0 [0]) failing).2 =
      some ⟨[NodeInfo.mk drive [] none true]⟩ ∧
    canFetchMore ⟨[NodeInfo.mk drive [] none true]⟩ (createIndex 0 0 [0]) = some false ∧
    fetchMore ⟨[NodeInfo.mk drive [] none true]⟩ (createIndex 0 0 [0]) listing = ([], none) :=
  ⟨rfl, rfl, rfl⟩

/-- C2 as amended, at an input. -/
theorem fetchMore_listing_failure_witness :
    failing drive.absoluteFilePath = none ∧
    ∃ ev m', fetchMore s0 (createIndex 0 0 [0]) failing = (ev, some m') ∧
      canFetchMore m' (createIndex 0 0 [0]) = some false ∧
      fetchMore m' (createIndex 0 0 [0]) listing = ([], none) := by
  obtain ⟨ev, m', _, h1, _, _, _, h5, h6⟩ :=
    fetchMore_listing_failure s0 reachable_s0 (createIndex 0 0 [0]) failing [0]
      (NodeInfo.mk drive [] none false) rfl rfl rfl rfl rfl rfl
  exact ⟨rfl, ev, m', h1, h5, h6 listing⟩

/-- C4, at an input: asked to rename the drive `/` to `x`, `setData` calls
`QFile::rename("/", "//x")`; it answers what the call answers, and when the call
succeeds the root has a new path. -/
theorem setData_root_counterexample :
    setData s0 (createIndex 0 0 [0]) "x" Qt.EditRole '/' refuse stat =
      ([Effect.rename "/" "//x"], some (false, s0)) ∧
    setData s0 (createIndex 0 0 [0]) "x" Qt.EditRole '/' accept stat =
      ([Effect.rename "/" "//x",
        Effect.dataChanged (createIndex 0 0 [0]) QModelIndex.invalid],
       some (true, ⟨[NodeInfo.mk ⟨"//x", "/x", "/", true, false, 4096, "/x"⟩ [] none false]⟩)) :=
  ⟨rfl, rfl⟩

/-- C4 as amended, at an input. -/
theorem setData_root_witness :
    flags s0 (createIndex 0 0 [0]) = some (Qt.ItemIsSelectable ||| Qt.ItemIsEnabled) ∧
    ∃ ev m', setData s0 (createIndex 0 0 [0]) "x" Qt.EditRole '/' refuse stat =
      (Effect.rename "/" "//x" :: ev, some (false, m')) := by
  obtain ⟨h1, _, ev, m', h3, _⟩ :=
    setData_root s0 (createIndex 0 0 [0]) [0] (NodeInfo.mk drive [] none false) "x" '/' refuse
      stat rfl rfl rfl rfl rfl rfl (by decide)
  exact ⟨h1, ev, m', h3⟩

/-- C10, at the failing input: expanding a directory whose listing is empty
announces the row range 0..0, one row, and appends none: `rowCount` is 0
afterwards. -/
theorem fetchMore_empty_announces_a_row :
    fetchMore s0 (createIndex 0 0 [0]) empty =
      ([Effect.entryInfoList "/", Effect.beginInsertRows (createIndex 0 0 [0]) 0 0,
        Effect.endInsertRows], some ⟨[NodeInfo.mk drive [] none true]⟩) ∧
    rowCount ⟨[NodeInfo.mk drive [] none true]⟩ (createIndex 0 0 [0]) = some 0 ∧
    (0 : Int) - 0 + 1 ≠ 0 :=
  ⟨rfl, rfl, by decide⟩

/-- C1, at the failing input: in the reachable state `s6` the third child of the
first directory has the same `fileInfo` as the second; `findRow` of the third
answers row 1, and `index` at that row under `parent` of the third is the
second child, another node. -/
theorem round_trip_fails_at_equal_siblings :
    Reachable s6 ∧
    nodeAt s6._nodes [0, 0, 0, 1] =
      some (NodeInfo.mk (file "/r/d/a.txt") [] (some [0, 0, 0]) true) ∧
    nodeAt s6._nodes [0, 0, 0, 2] =
      some (NodeInfo.mk (file "/r/d/a.txt") [] (some [0, 0, 0]) true) ∧
    findRow s6 (some [0, 0, 0, 2]) = some 1 ∧
    parent s6 (createIndex 2 0 [0, 0, 0, 2]) = some (createIndex 0 0 [0, 0, 0]) ∧
    index s6 1 0 (createIndex 0 0 [0, 0, 0]) = some (createIndex 1 0 [0, 0, 0, 1]) ∧
    createIndex 1 0 [0, 0, 0, 1] ≠ createIndex 2 0 [0, 0, 0, 2] :=
  ⟨reachable_s6, rfl, rfl, rfl, rfl, rfl, by decide⟩

/-- In the state `s6c`, reached by a rename as well, the first child (not
mapped) has the path of the second (a file, mapped): looking the second up,
`operator==` finds the two `fileInfo`s equal and its assertion
`this->mapped == another.mapped` fails, so `findRow` aborts. -/
theorem findRow_assertion_fails :
    Reachable s6c ∧
    nodeAt s6c._nodes [0, 0, 0, 0] =
      some (NodeInfo.mk (file "/r/d/a.txt") [] (some [0, 0, 0]) false) ∧
    nodeAt s6c._nodes [0, 0, 0, 1] =
      some (NodeInfo.mk (file "/r/d/a.txt") [] (some [0, 0, 0]) true) ∧
    findRow s6c (some [0, 0, 0, 1]) = none :=
  ⟨Reachable.step _ _ reachable_s5
    (Step.setData s5 (createIndex 0 0 [0, 0, 0, 0]) "a.txt" Qt.EditRole '/' accept stat _ true
      s6c rfl),
   rfl, rfl, rfl⟩

/-- C7, at the failing input: the rename of the first child, an unexpanded
directory, to `z` succeeds and puts the info of a regular file into the node,
which stays unmapped: in the reachable state `s6z`, `canFetchMore` is true for a
file node, and `fetchMore` on that node fails the assertion `fileInfo.isDir()`. -/
theorem canFetchMore_true_for_a_file :
    nodeAt s5._nodes [0, 0, 0, 0] =
      some (NodeInfo.mk (dir "/r/d/C") [] (some [0, 0, 0]) false) ∧
    setData s5 (createIndex 0 0 [0, 0, 0, 0]) "z" Qt.EditRole '/' accept stat =
      ([Effect.rename "/r/d/C" "/r/d/z",
        Effect.dataChanged (createIndex 0 0 [0, 0, 0, 0]) QModelIndex.invalid],
       some (true, s6z)) ∧
    Reachable s6z ∧
    nodeAt s6z._nodes [0, 0, 0, 0] =
      some (NodeInfo.mk (file "/r/d/z") [] (some [0, 0, 0]) false) ∧
    (file "/r/d/z").isDir = false ∧
    canFetchMore s6z (createIndex 0 0 [0, 0, 0, 0]) = some true ∧
    fetchMore s6z (createIndex 0 0 [0, 0, 0, 0]) listing = ([], none) :=
  ⟨rfl, rfl, reachable_s6z, rfl, rfl, rfl, rfl⟩

/-- C9, at the failing input: in the reachable state `s6z` the first child of
the first directory is a file node (its `fileInfo` answers `isDir()` false), it
has no rows, and `hasChildren` is true for it. -/
theorem hasChildren_true_for_a_file :
    Reachable s6z ∧
    (nodeAt s6z._nodes [0, 0, 0, 0]).map (fun n => (n.fileInfo.isDir, n.mapped)) =
      some (false, false) ∧
    rowCount s6z (createIndex 0 0 [0, 0, 0, 0]) = some 0 ∧
    hasChildren s6z (createIndex 0 0 [0, 0, 0, 0]) = some true :=
  ⟨reachable_s6z, rfl, rfl, rfl⟩

/-- C6, at the failing input: the rename of the third child to `a.txt` succeeds
and `findRow` of that node, 2 before the call, is 1 after it. -/
theorem rename_changes_findRow :
    findRow s5 (some [0, 0, 0, 2]) = some 2 ∧
    setData s5 (createIndex 2 0 [0, 0, 0, 2]) "a.txt" Qt.EditRole '/' accept stat =
      ([Effect.rename "/r/d/b.txt" "/r/d/a.txt",
        Effect.dataChanged (createIndex 2 0 [0, 0, 0, 2]) QModelIndex.invalid],
       some (true, s6)) ∧
    findRow s6 (some [0, 0, 0, 2]) = some 1 :=
  ⟨rfl, rfl, rfl⟩

end FilesystemModel
